import Mathlib

set_option maxHeartbeats 1000000

/-! Verification of the git state reconciliation engine of vgit (src/vgit/git.py).
Python strings are modelled as lists of characters (`PyStr`), Python dicts as
association lists with insert-or-replace assignment, and generators as functions
from the already-read input to the list of yielded values. -/

namespace VGit

abbrev PyStr := List Char

/-- Python dict read `d.get(k)`: the value stored at the key, if any. -/
def dictGet? {κ ν : Type} [DecidableEq κ] : List (κ × ν) → κ → Option ν
  | [], _ => none
  | (k, w) :: rest, key => if k = key then some w else dictGet? rest key

/-- Python dict assignment `d[k] = v`: replace the value if the key is present, else append. -/
def dictInsert {κ ν : Type} [DecidableEq κ] : List (κ × ν) → κ → ν → List (κ × ν)
  | [], key, v => [(key, v)]
  | (k, w) :: rest, key, v =>
    if k = key then (key, v) :: rest else (k, w) :: dictInsert rest key v

/-- In-place mutation of the record stored at a key (Python `cs.adds = ...` on the record
obtained from the dict). -/
def dictModify {κ ν : Type} [DecidableEq κ] : List (κ × ν) → κ → (ν → ν) → List (κ × ν)
  | [], _, _ => []
  | (k, w) :: rest, key, f =>
    if k = key then (k, f w) :: rest else (k, w) :: dictModify rest key f

theorem dictGet?_insert_self {κ ν : Type} [DecidableEq κ] (m : List (κ × ν)) (k : κ) (v : ν) :
    dictGet? (dictInsert m k v) k = some v := by
  induction m with
  | nil => simp [dictInsert, dictGet?]
  | cons p rest ih =>
    obtain ⟨k', w⟩ := p
    by_cases h : k' = k
    · simp [dictInsert, dictGet?, h]
    · simp [dictInsert, dictGet?, h, ih]

theorem dictGet?_insert_ne {κ ν : Type} [DecidableEq κ] (m : List (κ × ν)) (k k' : κ) (v : ν)
    (h : k ≠ k') : dictGet? (dictInsert m k v) k' = dictGet? m k' := by
  induction m with
  | nil => simp [dictInsert, dictGet?, h]
  | cons p rest ih =>
    obtain ⟨k0, w⟩ := p
    by_cases h0 : k0 = k
    · subst h0
      simp [dictInsert, dictGet?, h]
    · simp [dictInsert, dictGet?, h0, ih]

theorem dictGet?_modify_self {κ ν : Type} [DecidableEq κ] (m : List (κ × ν)) (k : κ)
    (f : ν → ν) : dictGet? (dictModify m k f) k = (dictGet? m k).map f := by
  induction m with
  | nil => simp [dictModify, dictGet?]
  | cons p rest ih =>
    obtain ⟨k0, w⟩ := p
    by_cases h0 : k0 = k
    · simp [dictModify, dictGet?, h0]
    · simp [dictModify, dictGet?, h0, ih]

theorem dictGet?_modify_ne {κ ν : Type} [DecidableEq κ] (m : List (κ × ν)) (k k' : κ)
    (f : ν → ν) (h : k ≠ k') : dictGet? (dictModify m k f) k' = dictGet? m k' := by
  induction m with
  | nil => simp [dictModify, dictGet?]
  | cons p rest ih =>
    obtain ⟨k0, w⟩ := p
    by_cases h0 : k0 = k
    · subst h0
      simp [dictModify, dictGet?, h]
    · simp [dictModify, dictGet?, h0, ih]

/-- The FileStatus record cached per path: a two-character status code, the unstaged
delta string (field `adds`) and the staged delta string (field `dels`), each absent
until the corresponding numstat query fills it in. -/
structure FileStatus where
  status : PyStr
  adds : Option PyStr
  dels : Option PyStr
deriving DecidableEq

abbrev Cache := List (PyStr × FileStatus)

/-- Modelled from the spec: equality between a FileStatus record and a two-character
string, written `st == '??'` in the source. The record type is created by visidata's
namedlist (visidata/namedlist.py, not under src/); per spec §4.4 the status-to-label
mapping keys off the two-character status code, so the comparison tests the record's
status code. -/
def fsEqStr (st : FileStatus) (s : PyStr) : Bool :=
  decide (st.status = s)

/-- The vmod label table of GitStatus.statusText. -/
def vmod : List (Char × PyStr) :=
  [('A', "add".toList), ('D', "rm".toList), ('M', "mod".toList), ('T', "chmod".toList),
   ('?', "out".toList), ('!', "ignored".toList), ('U', "unmerged".toList)]

/-- Python `vmod.get(c, c)`: table lookup with the raw character as the default. -/
def vmodGet (c : Char) : PyStr :=
  (dictGet? vmod c).getD [c]

/-- GitStatus.statusText. `x, y = st.status` raises on a status code whose length is
not two, modelled as `none`. -/
def statusText (st : FileStatus) : Option PyStr :=
  match st.status with
  | [x, y] =>
    if fsEqStr st "??".toList then some "new".toList
    else if fsEqStr st "!!".toList then some "ignored".toList
    else if x ≠ ' ' ∧ y = ' ' then some (vmodGet x)
    else if y ≠ ' ' then some (vmodGet y)
    else some []
  | _ => none

/-- GitStatus.git_status for a row with relative path `fn`: look up the cached record,
inserting a fresh sentinel record when the key is absent. Returns the record together
with the possibly-updated cache (`if not ret` is a None test: the cached record is a
three-element namedlist and hence never falsy). -/
def git_status (cache : Cache) (fn : PyStr) : FileStatus × Cache :=
  match dictGet? cache fn with
  | some ret => (ret, cache)
  | none =>
    let ret : FileStatus := ⟨"//".toList, none, none⟩
    (ret, dictInsert cache fn ret)

/-- GitStatus.ignored. The option vgit_show_ignored is declared outside src/ and is
modelled as the boolean argument. -/
def ignored (show_ignored : Bool) (cache : Cache) (fn : PyStr) : Bool :=
  if show_ignored then false
  else
    match dictGet? cache fn with
    | some st => decide (st.status = "!!".toList)
    | none => false

/-- C10: a status read for a path absent from the cache does not fail and does not return
an absent value: it returns a fresh record with sentinel code "//" and absent deltas,
and inserts that record into the cache, so later lookups (such as the ignored check)
see the "//" sentinel. -/
theorem git_status_unknown_path (cache : Cache) (fn : PyStr)
    (h : dictGet? cache fn = none) :
    (git_status cache fn).1 = ⟨"//".toList, none, none⟩ ∧
    dictGet? (git_status cache fn).2 fn = some ⟨"//".toList, none, none⟩ ∧
    ignored false (git_status cache fn).2 fn = false := by
  refine ⟨?_, ?_, ?_⟩
  · simp [git_status, h]
  · simp [git_status, h, dictGet?_insert_self]
  · simp [ignored, git_status, h, dictGet?_insert_self]

/-- C10 witness: the empty cache and the path "a.txt". -/
theorem git_status_unknown_path_witness :
    dictGet? ([] : Cache) "a.txt".toList = none ∧
    ((git_status [] "a.txt".toList).1 = ⟨"//".toList, none, none⟩ ∧
     dictGet? (git_status [] "a.txt".toList).2 "a.txt".toList =
       some ⟨"//".toList, none, none⟩ ∧
     ignored false (git_status [] "a.txt".toList).2 "a.txt".toList = false) :=
  ⟨rfl, git_status_unknown_path [] "a.txt".toList rfl⟩

/-- C5 counterexample: the claim maps the staged-state character 'D' to the label
"remove", but statusText of the record with status code "D " (staged delete) yields
the label "rm". -/
theorem statusText_claim_counterexample :
    statusText ⟨"D ".toList, none, none⟩ = some "rm".toList ∧
    statusText ⟨"D ".toList, none, none⟩ ≠ some "remove".toList := by
  constructor
  · rfl
  · decide

/-- C5 amended: as the claim, except that the label table is that of the source's vmod
dictionary: A→"add", D→"rm", M→"mod", T→"chmod", and additionally ?→"out",
!→"ignored", U→"unmerged"; only characters outside this table map to themselves.
"??" maps to "new", "!!" to "ignored", a non-blank staged character with a blank
working character selects the staged label, otherwise a non-blank working character
selects the working label, otherwise the label is empty. -/
theorem statusText_amended :
    (statusText ⟨"??".toList, none, none⟩ = some "new".toList) ∧
    (statusText ⟨"!!".toList, none, none⟩ = some "ignored".toList) ∧
    (∀ x : Char, x ≠ ' ' → statusText ⟨[x, ' '], none, none⟩ = some (vmodGet x)) ∧
    (∀ x y : Char, y ≠ ' ' → [x, y] ≠ "??".toList → [x, y] ≠ "!!".toList →
       statusText ⟨[x, y], none, none⟩ = some (vmodGet y)) ∧
    (statusText ⟨"  ".toList, none, none⟩ = some []) ∧
    (vmodGet 'A' = "add".toList) ∧ (vmodGet 'D' = "rm".toList) ∧
    (vmodGet 'M' = "mod".toList) ∧ (vmodGet 'T' = "chmod".toList) ∧
    (vmodGet '?' = "out".toList) ∧ (vmodGet '!' = "ignored".toList) ∧
    (vmodGet 'U' = "unmerged".toList) ∧
    (∀ c : Char, c ∉ "ADMT?!U".toList → vmodGet c = [c]) := by
  refine ⟨rfl, rfl, ?_, ?_, rfl, rfl, rfl, rfl, rfl, rfl, rfl, rfl, ?_⟩
  · intro x hx
    simp [statusText, fsEqStr, hx]
  · intro x y hy hq he
    have hq' : ¬ (x = '?' ∧ y = '?') := fun ⟨a, b⟩ => hq (by rw [a, b]; rfl)
    have he' : ¬ (x = '!' ∧ y = '!') := fun ⟨a, b⟩ => he (by rw [a, b]; rfl)
    simp [statusText, fsEqStr, hq', he', hy]
  · intro c hc
    have h1 : 'A' ≠ c := fun h => hc (by rw [← h]; decide)
    have h2 : 'D' ≠ c := fun h => hc (by rw [← h]; decide)
    have h3 : 'M' ≠ c := fun h => hc (by rw [← h]; decide)
    have h4 : 'T' ≠ c := fun h => hc (by rw [← h]; decide)
    have h5 : '?' ≠ c := fun h => hc (by rw [← h]; decide)
    have h6 : '!' ≠ c := fun h => hc (by rw [← h]; decide)
    have h7 : 'U' ≠ c := fun h => hc (by rw [← h]; decide)
    simp [vmodGet, vmod, dictGet?, h1, h2, h3, h4, h5, h6, h7]

/-- C5 witness for the quantified parts of the amended statement: the character 'R' is
outside the vmod table, so both staged "R " and the default lookup yield "R". -/
theorem statusText_amended_witness :
    statusText ⟨"R ".toList, none, none⟩ = some (vmodGet 'R') ∧ vmodGet 'R' = ['R'] := by
  obtain ⟨-, -, h3, -, -, -, -, -, -, -, -, -, h13⟩ := statusText_amended
  exact ⟨h3 'R' (by decide), h13 'R' (by decide)⟩

/-- Python regex \s: whitespace characters. -/
def isPySpace (c : Char) : Bool :=
  c = ' ' || c = '\t' || c = '\n' || c = '\x0b' || c = '\x0c' || c = '\r'

/-- Match a literal string (the regex literals `ahead` and `behind`) at the front of
the input, returning the rest. -/
def stripLit : PyStr → PyStr → Option PyStr
  | [], s => some s
  | _, [] => none
  | l :: ls, c :: cs => if c = l then stripLit ls cs else none

/-- Match `.(\d+)`: any character except newline, then a greedy non-empty digit run.
Returns the digit string and the rest of the input. -/
def dotDigits : PyStr → Option (PyStr × PyStr)
  | [] => none
  | c :: rest =>
    if c = '\n' then none
    else
      let ds := rest.takeWhile Char.isDigit
      if ds = [] then none else some (ds, rest.dropWhile Char.isDigit)

/-- Match the inner `behind.(\d+)` group of the branch-status regex. -/
def behindAttempt (s : PyStr) : Option (PyStr × PyStr) := do
  let r ← stripLit "behind".toList s
  dotDigits r

/-- Match the optional bracket group `(\[(ahead.(\d+)),?\s*(behind.(\d+))?\])?` of the
branch-status regex at the start of the input, in the Python engine's backtracking
order: `ahead` is mandatory inside the bracket, the `behind` group is tried greedily
and dropped again when no `]` follows it. Returns the captured nahead and nbehind
digit strings. -/
def bracketAttempt (s : PyStr) : Option (PyStr × Option PyStr) := do
  let s1 ← match s with | '[' :: r => some r | _ => none
  let s2 ← stripLit "ahead".toList s1
  let (nahead, s3) ← dotDigits s2
  let s4 := match s3 with | ',' :: r => r | r => r
  let s5 := s4.dropWhile isPySpace
  match behindAttempt s5 with
  | some (nbehind, s6) =>
    match s6 with
    | ']' :: _ => some (nahead, some nbehind)
    | _ =>
      match s5 with
      | ']' :: _ => some (nahead, none)
      | _ => none
  | none =>
    match s5 with
    | ']' :: _ => some (nahead, none)
    | _ => none

/-- The capture groups of one branch-status line that the source unpacks from
`m.groups()`: local branch, upstream, ahead count, behind count. -/
structure BranchGroups where
  localb : PyStr
  remoteb : Option PyStr
  nahead : Option PyStr
  nbehind : Option PyStr
deriving DecidableEq

/-- re.search of the verbose pattern
`(\S+)\s*(\S+)?\s*(\[(ahead.(\d+)),?\s*(behind.(\d+))?\])?` on one line. Everything
after the first group can match empty, so the search succeeds at the first
non-whitespace character and each greedy piece commits; a line with no
non-whitespace character is unmatched (reported and skipped by the caller). -/
def branchSearch (s : PyStr) : Option BranchGroups :=
  let t := s.dropWhile isPySpace
  match t with
  | [] => none
  | _ :: _ =>
    let localb := t.takeWhile (fun c => ! isPySpace c)
    let r1 := (t.dropWhile (fun c => ! isPySpace c)).dropWhile isPySpace
    let remoteb : Option PyStr :=
      match r1 with
      | [] => none
      | _ :: _ => some (r1.takeWhile (fun c => ! isPySpace c))
    let r2 := (r1.dropWhile (fun c => ! isPySpace c)).dropWhile isPySpace
    match bracketAttempt r2 with
    | some (a, b) => some ⟨localb, remoteb, some a, b⟩
    | none => some ⟨localb, remoteb, none, none⟩

/-- The delta formatting of getBranchStatuses: `+%s` from nahead when present, then
`-%s` from nbehind, separated by `/` when the ahead part is non-empty. -/
def formatBranchDelta (nahead nbehind : Option PyStr) : PyStr :=
  let r : PyStr := match nahead with | some n => '+' :: n | none => []
  match nbehind with
  | some m => (if r = [] then r else r ++ ['/']) ++ '-' :: m
  | none => r

/-- GitStatus.getBranchStatuses over the for-each-ref output lines: unmatched lines
are reported and skipped, matched lines set ret[localb] to the formatted delta. -/
def getBranchStatuses (lines : List PyStr) : List (PyStr × PyStr) :=
  lines.foldl
    (fun ret line =>
      match branchSearch line with
      | none => ret
      | some g => dictInsert ret g.localb (formatBranchDelta g.nahead g.nbehind))
    []

/-- C1: evaluation of the Branch Status Parser. Both examples of the claim hold, but
the claim's behind-only case fails: a line `main origin/main [behind 1]` yields the
empty delta instead of `-1`, because the regex captures `behind` only inside the
bracket group that mandates `ahead`, so nbehind is never set without nahead and the
formatter's behind-only branch (`r += '-%s'` with empty r) is unreachable. -/
theorem getBranchStatuses_eval :
    getBranchStatuses ["main origin/main [ahead 2, behind 1]".toList] =
      [("main".toList, "+2/-1".toList)] ∧
    getBranchStatuses ["main".toList] = [("main".toList, [])] ∧
    getBranchStatuses ["main origin/main [behind 1]".toList] =
      [("main".toList, [])] ∧
    getBranchStatuses ["main origin/main [behind 1]".toList] ≠
      [("main".toList, "-1".toList)] := by
  refine ⟨rfl, rfl, rfl, ?_⟩
  decide

/-- The inner while-loop of git_iter on one read of data: scan for the delimiter,
yield every completed chunk (the fragment buffer `buf` followed by the data up to the
delimiter), and retain the remainder in the buffer. -/
def processData (sep : Char) (buf : PyStr) : PyStr → List PyStr × PyStr
  | [] => ([], buf)
  | c :: rest =>
    if c = sep then
      let r := processData sep [] rest
      (buf :: r.1, r.2)
    else processData sep (buf ++ [c]) rest

/-- The for-loop of git_iter over the reads delivered by the running command,
threading the fragment buffer. Returns all yielded chunks and the final buffer. -/
def processReads (sep : Char) (buf : PyStr) : List PyStr → List PyStr × PyStr
  | [] => ([], buf)
  | d :: ds =>
    let r1 := processData sep buf d
    let r2 := processReads sep r1.2 ds
    (r1.1 ++ r2.1, r2.2)

/-- git_iter: the chunks yielded for a stream delivered as the given reads; on stream
end a non-empty remainder is yielded as one final chunk. -/
def git_iter (sep : Char) (reads : List PyStr) : List PyStr :=
  let r := processReads sep [] reads
  r.1 ++ (if r.2 = [] then [] else [r.2])

/-- Joining a chunk sequence with the delimiter: the claim's round-trip operation. -/
def joinSep (sep : Char) : List PyStr → PyStr
  | [] => []
  | [x] => x
  | x :: y :: rest => x ++ sep :: joinSep sep (y :: rest)

/-- Each chunk followed by the delimiter, in front of a tail. -/
def expandChunks (sep : Char) (cs : List PyStr) (t : PyStr) : PyStr :=
  cs.foldr (fun c acc => c ++ sep :: acc) t

theorem expandChunks_cons (sep : Char) (x : PyStr) (cs : List PyStr) (t : PyStr) :
    expandChunks sep (x :: cs) t = x ++ sep :: expandChunks sep cs t := rfl

theorem expandChunks_tail (sep : Char) (cs : List PyStr) (t : PyStr) :
    expandChunks sep cs t = expandChunks sep cs [] ++ t := by
  induction cs with
  | nil => simp [expandChunks]
  | cons x cs ih => rw [expandChunks_cons, expandChunks_cons, ih]; simp

theorem processData_cons_pos (sep : Char) (c : Char) (rest buf : PyStr) (h : c = sep) :
    processData sep buf (c :: rest) =
      (buf :: (processData sep [] rest).1, (processData sep [] rest).2) := by
  simp [processData, h]

theorem processData_cons_neg (sep : Char) (c : Char) (rest buf : PyStr) (h : ¬ c = sep) :
    processData sep buf (c :: rest) = processData sep (buf ++ [c]) rest := by
  simp [processData, h]

theorem processData_expand (sep : Char) (data buf : PyStr) :
    expandChunks sep (processData sep buf data).1 (processData sep buf data).2 =
      buf ++ data := by
  induction data generalizing buf with
  | nil => simp [processData, expandChunks]
  | cons c rest ih =>
    by_cases h : c = sep
    · rw [processData_cons_pos sep c rest buf h, expandChunks_cons, ih []]
      simp [h]
    · rw [processData_cons_neg sep c rest buf h, ih (buf ++ [c])]
      simp

theorem expandChunks_append (sep : Char) (A B : List PyStr) (t : PyStr) :
    expandChunks sep (A ++ B) t = expandChunks sep A (expandChunks sep B t) := by
  simp [expandChunks, List.foldr_append]

theorem processReads_expand (sep : Char) (reads : List PyStr) (buf : PyStr) :
    expandChunks sep (processReads sep buf reads).1 (processReads sep buf reads).2 =
      buf ++ reads.flatten := by
  induction reads generalizing buf with
  | nil => simp [processReads, expandChunks]
  | cons d ds ih =>
    simp only [processReads, expandChunks_append, List.flatten_cons]
    rw [ih, expandChunks_tail, ← List.append_assoc, ← expandChunks_tail,
        processData_expand, List.append_assoc]

theorem processData_sep_not_mem (sep : Char) (data buf : PyStr) (h : sep ∉ buf) :
    sep ∉ (processData sep buf data).2 := by
  induction data generalizing buf with
  | nil => simpa [processData] using h
  | cons c rest ih =>
    by_cases hc : c = sep
    · rw [processData_cons_pos sep c rest buf hc]
      exact ih [] (by simp)
    · rw [processData_cons_neg sep c rest buf hc]
      refine ih (buf ++ [c]) ?_
      intro hx
      rcases List.mem_append.mp hx with h1 | h2
      · exact h h1
      · exact hc (List.mem_singleton.mp h2).symm

theorem processReads_sep_not_mem (sep : Char) (reads : List PyStr) (buf : PyStr)
    (h : sep ∉ buf) : sep ∉ (processReads sep buf reads).2 := by
  induction reads generalizing buf with
  | nil => simpa [processReads] using h
  | cons d ds ih => simpa [processReads] using ih _ (processData_sep_not_mem sep d buf h)

theorem joinSep_eq_expandChunks (sep : Char) (cs : List PyStr) (t : PyStr) :
    joinSep sep (cs ++ [t]) = expandChunks sep cs t := by
  induction cs with
  | nil => rfl
  | cons x cs ih =>
    cases cs with
    | nil => rfl
    | cons y cs' =>
      simp only [List.cons_append] at ih ⊢
      show x ++ sep :: joinSep sep (y :: (cs' ++ [t])) = expandChunks sep (x :: y :: cs') t
      rw [ih, expandChunks_cons sep x (y :: cs') t]

theorem expandChunks_nil_ne (sep : Char) (x : PyStr) (cs : List PyStr) :
    expandChunks sep (x :: cs) [] = joinSep sep (x :: cs) ++ [sep] := by
  induction cs generalizing x with
  | nil => rfl
  | cons y cs' ih =>
    show x ++ sep :: expandChunks sep (y :: cs') [] = joinSep sep (x :: y :: cs') ++ [sep]
    rw [ih y]
    show x ++ sep :: (joinSep sep (y :: cs') ++ [sep]) =
      (x ++ sep :: joinSep sep (y :: cs')) ++ [sep]
    simp

/-- C3 counterexample: for the stream "a\0" (one read, ending with the delimiter) the
chunker yields the single chunk "a", and joining the chunks with the delimiter gives
"a", which is not the original stream contents. -/
theorem git_iter_round_trip_counterexample :
    git_iter '\x00' [['a', '\x00']] = [['a']] ∧
    joinSep '\x00' (git_iter '\x00' [['a', '\x00']]) ≠ [['a', '\x00']].flatten := by
  refine ⟨rfl, ?_⟩
  decide

/-- C3 amended: joining the chunks yielded by the Stream Chunker with the delimiter
reconstructs the stream exactly whenever the stream does not end with the delimiter;
when it does end with the delimiter, the join reconstructs the stream with that one
final delimiter removed. On stream end a non-empty undelimited remainder (the final
buffer) is yielded as one final chunk: it contains no delimiter and is a suffix of
the stream. -/
theorem git_iter_round_trip (sep : Char) (reads : List PyStr) :
    (joinSep sep (git_iter sep reads) =
      if reads.flatten.getLast? = some sep then reads.flatten.dropLast
      else reads.flatten) ∧
    ((processReads sep [] reads).2 ≠ [] →
      git_iter sep reads =
        (processReads sep [] reads).1 ++ [(processReads sep [] reads).2] ∧
      sep ∉ (processReads sep [] reads).2 ∧
      (processReads sep [] reads).2 <:+ reads.flatten) := by
  have hE : expandChunks sep (processReads sep [] reads).1
      (processReads sep [] reads).2 = reads.flatten := by
    simpa using processReads_expand sep reads []
  have hs : sep ∉ (processReads sep [] reads).2 :=
    processReads_sep_not_mem sep reads [] (by simp)
  have hgit : git_iter sep reads = (processReads sep [] reads).1 ++
      (if (processReads sep [] reads).2 = [] then []
       else [(processReads sep [] reads).2]) := rfl
  have hE' : expandChunks sep (processReads sep [] reads).1 [] ++
      (processReads sep [] reads).2 = reads.flatten := by
    rw [← expandChunks_tail]
    exact hE
  constructor
  · by_cases h2 : (processReads sep [] reads).2 = []
    · rw [h2] at hE
      cases hr1 : (processReads sep [] reads).1 with
      | nil =>
        have hfl : reads.flatten = [] := by rw [← hE, hr1]; rfl
        rw [hgit, hr1, h2, hfl]
        simp [joinSep]
      | cons x cs =>
        have hfl : reads.flatten = joinSep sep (x :: cs) ++ [sep] := by
          rw [← hE, hr1, expandChunks_nil_ne]
        rw [hgit, hr1, h2, hfl]
        simp [List.getLast?_concat, List.dropLast_concat]
    · obtain ⟨ys, y, hy⟩ :=
        (List.eq_nil_or_concat (processReads sep [] reads).2).resolve_left h2
      have hysep : y ≠ sep := by
        intro hcontr
        apply hs
        rw [hy, hcontr]
        simp
      have hlast : reads.flatten.getLast? = some y := by
        rw [← hE', hy]
        simp [List.concat_eq_append, ← List.append_assoc, List.getLast?_concat]
      have hcond : ¬ (reads.flatten.getLast? = some sep) := by
        rw [hlast]
        intro hc
        exact hysep (Option.some_inj.mp hc)
      rw [hgit, if_neg h2, joinSep_eq_expandChunks, hE, if_neg hcond]
  · intro h2
    exact ⟨by rw [hgit, if_neg h2], hs,
      ⟨expandChunks sep (processReads sep [] reads).1 [], hE'⟩⟩

/-- C3 witness for the remainder clause: the stream "a\0b" ends with the undelimited
remainder "b", which is yielded as the final chunk. -/
theorem git_iter_round_trip_witness :
    (processReads '\x00' [] [['a', '\x00', 'b']]).2 ≠ [] ∧
    (git_iter '\x00' [['a', '\x00', 'b']] =
      (processReads '\x00' [] [['a', '\x00', 'b']]).1 ++
        [(processReads '\x00' [] [['a', '\x00', 'b']]).2] ∧
     '\x00' ∉ (processReads '\x00' [] [['a', '\x00', 'b']]).2 ∧
     (processReads '\x00' [] [['a', '\x00', 'b']]).2 <:+ [['a', '\x00', 'b']].flatten) :=
  ⟨by decide, (git_iter_round_trip '\x00' [['a', '\x00', 'b']]).2 (by decide)⟩

/-- Python str.split(sep) for a single-character separator: keeps empty pieces; the
empty string yields one empty piece. -/
def pysplit (sep : Char) : PyStr → List PyStr
  | [] => [[]]
  | c :: rest =>
    if c = sep then [] :: pysplit sep rest
    else
      match pysplit sep rest with
      | [] => [[c]]
      | p :: ps => (c :: p) :: ps

/-- Stat information a GitFile draws from the filesystem, supplied by an oracle since
the worktree itself is outside the model: directory flag, filesize, mtime, and the
path suffix used by the type column. -/
structure FileInfo where
  is_dir : Bool
  size : Int
  mtime : Int
  ext : PyStr
deriving DecidableEq

/-- GitFile: one path in the working tree. The repository-relative filename of
`GitFile(source.joinpath(fn), source)` is os.path.relpath of the joined path against
the repository root, which for an already-normalized relative fn is fn itself. -/
structure GitFile where
  filename : PyStr
  is_dir : Bool
  size : Int
  mtime : Int
  ext : PyStr
deriving DecidableEq

def mkGitFile (fs : PyStr → FileInfo) (fn : PyStr) : GitFile :=
  ⟨fn, (fs fn).is_dir, (fs fn).size, (fs fn).mtime, (fs fn).ext⟩

/-- The outcome of one chunked git query inside reload: the chunks git_iter yielded
(on failure, everything that arrived before the error) and whether the command
exited zero. Modelled from the spec: on non-zero exit the chunk sequence terminates
after the chunks obtainable before the error, and the error is reported to the
caller as a side channel, not inline in the sequence (spec §4.1, §7); visidata's
status/error reporting functions live outside src/. -/
structure QRes where
  chunks : List PyStr
  ok : Bool

/-- Everything one reload cycle reads: the directory listing, the four query
outcomes, the branch queries' output, the show-ignored option and the stat oracle. -/
structure ReloadInput where
  files : List GitFile
  branchOut : PyStr
  branchLines : List PyStr
  lsFiles : QRes
  statusQ : QRes
  unstagedQ : QRes
  stagedQ : QRes
  show_ignored : Bool
  fs : PyStr → FileInfo

/-- The mutable sheet state reload drives: the visible rows, the status cache, and a
trace of every value the row list takes while being built (reload runs as a
background thread and mutates the sheet in place, so a reader can observe each). The
final sort's output is the rows field itself. -/
structure RState where
  rows : List GitFile
  cache : Cache
  trace : List (List GitFile)
deriving DecidableEq

def addRow (s : RState) (gf : GitFile) : RState :=
  ⟨s.rows ++ [gf], s.cache, s.trace ++ [s.rows ++ [gf]]⟩

/-- One chunk of `git status -z -unormal --ignored`: the two-character code and the
path when the third character is a space, else the whole chunk is the path with
sentinel code "//". -/
def parseStatusChunk (l : PyStr) : PyStr × PyStr :=
  if (l.drop 2).take 1 = [' '] then (l.take 2, l.drop 3) else ("//".toList, l)

/-- One iteration of the status-query loop of GitStatus.reload: record the status
code, and materialize a row for a path outside the directory listing unless it is
classified as ignored. -/
def statusStep (show_ignored : Bool) (fs : PyStr → FileInfo) (cands : List PyStr)
    (s : RState) (l : PyStr) : RState :=
  if l = [] then s
  else
    let st := (parseStatusChunk l).1
    let gf := mkGitFile fs (parseStatusChunk l).2
    let cache' := dictInsert s.cache gf.filename ⟨st, none, none⟩
    let s' : RState := ⟨s.rows, cache', s.trace⟩
    if gf.filename ∈ cands then s'
    else if ignored show_ignored cache' gf.filename then s'
    else addRow s' gf

/-- Format the delta string from the two numstat count fields: a plus sign, the adds
count, a slash, a minus sign, the dels count. -/
def fmtDelta (adds dels : PyStr) : PyStr :=
  ['+'] ++ adds ++ ['/', '-'] ++ dels

/-- One line of `git diff-files --numstat -z`: seed the record with sentinel "##"
when absent, then set its unstaged-delta field (named `adds`). A line that does not
split into exactly three tab-separated fields raises ValueError, modelled as the
error case. -/
def unstagedStep (cache : Cache) (l : PyStr) : Except Unit Cache :=
  if l = [] then .ok cache
  else
    match pysplit '\t' l with
    | [adds, dels, fn] =>
      let c := if (dictGet? cache fn).isSome then cache
               else dictInsert cache fn ⟨"##".toList, none, none⟩
      .ok (dictModify c fn (fun cs => ⟨cs.status, some (fmtDelta adds dels), cs.dels⟩))
    | _ => .error ()

/-- One line of `git diff-index --cached --numstat -z HEAD`: seed sentinel "$$", set
the staged-delta field (named `dels`). -/
def stagedStep (cache : Cache) (l : PyStr) : Except Unit Cache :=
  if l = [] then .ok cache
  else
    match pysplit '\t' l with
    | [adds, dels, fn] =>
      let c := if (dictGet? cache fn).isSome then cache
               else dictInsert cache fn ⟨"$$".toList, none, none⟩
      .ok (dictModify c fn (fun cs => ⟨cs.status, cs.adds, some (fmtDelta adds dels)⟩))
    | _ => .error ()

/-- Cell values produced by the column getters. -/
inductive CellValue where
  | vstr (s : PyStr)
  | vint (n : Int)
  | vopt (s : Option PyStr)
  | vfs (f : FileStatus)
deriving DecidableEq

/-- Lexicographic text comparison by character code. -/
def pyStrLt : PyStr → PyStr → Bool
  | [], [] => false
  | [], _ :: _ => true
  | _ :: _, [] => false
  | a :: as, b :: bs =>
    if a.toNat < b.toNat then true
    else if b.toNat < a.toNat then false
    else pyStrLt as bs

/-- Modelled from the spec: comparison of two cell values, as the final sort needs it
("sort rows by the last column ... descending", spec §4.4 step 8); visidata's
orderBy machinery lives outside src/. Values of different shapes do not compare. -/
def cvLt : CellValue → CellValue → Bool
  | .vstr a, .vstr b => pyStrLt a b
  | .vint a, .vint b => decide (a < b)
  | .vopt none, .vopt (some _) => true
  | .vopt (some a), .vopt (some b) => pyStrLt a b
  | _, _ => false

/-- GitFile.__str__: the filename with a trailing slash for directories. -/
def gitFileStr (gf : GitFile) : PyStr :=
  gf.filename ++ (if gf.is_dir then ['/'] else [])

/-- The record git_status returns for a row, as the column getters read it (the
insert side effect of git_status, proved separately for C10, does not change the
returned record). -/
def git_status_view (cache : Cache) (fn : PyStr) : FileStatus :=
  (dictGet? cache fn).getD ⟨"//".toList, none, none⟩

/-- The eight columns of GitStatus, in source order; each getter reads the row and
the status cache. -/
def columns : List (PyStr × (GitFile → Cache → CellValue)) :=
  [("path".toList, fun r _ => .vstr (gitFileStr r)),
   ("status".toList, fun r c => .vstr ((statusText (git_status_view c r.filename)).getD [])),
   ("status_raw".toList, fun r c => .vfs (git_status_view c r.filename)),
   ("staged".toList, fun r c => .vopt (git_status_view c r.filename).dels),
   ("unstaged".toList, fun r c => .vopt (git_status_view c r.filename).adds),
   ("type".toList, fun r _ => .vstr (if r.is_dir then ['/'] else r.ext)),
   ("size".toList, fun r _ => .vint r.size),
   ("mtime".toList, fun r _ => .vint r.mtime)]

/-- The getter of `columns[-1]`, the column the final orderBy sorts on. -/
def lastColGetter (r : GitFile) (c : Cache) : CellValue :=
  ((columns.getLast?).map (fun col => col.2 r c)).getD (.vint 0)

/-- Modelled from the spec: `orderBy(None, col, reverse=True)` sorts the rows by the
column's value descending (spec §4.4 step 8); visidata's orderBy lives outside
src/. Realized as insertion sort. -/
def insertDesc {α : Type} (lt : α → α → Bool) (x : α) : List α → List α
  | [] => [x]
  | y :: ys => if lt y x then x :: y :: ys else y :: insertDesc lt x ys

def sortDesc {α : Type} (lt : α → α → Bool) : List α → List α
  | [] => []
  | x :: xs => insertDesc lt x (sortDesc lt xs)

/-- The filenames dict of reload: relative filename → GitFile, in directory order. -/
def filenamesDict (files : List GitFile) : List (PyStr × GitFile) :=
  files.foldl (fun d gf => dictInsert d gf.filename gf) []

/-- Step 7 of reload: materialize every candidate not classified as ignored. -/
def candStep (show_ignored : Bool) (s : RState) (p : PyStr × GitFile) : RState :=
  if ignored show_ignored s.cache p.2.filename then s else addRow s p.2

/-- The candidate set of step 1: the filenames of the directory listing. -/
def reloadCands (inp : ReloadInput) : List PyStr :=
  inp.files.map (fun gf => gf.filename)

/-- Reload after clearing rows and cache and seeding every tracked file (ls-files)
with the clean code "  " (two spaces): rows empty, trace at the cleared value. -/
def reloadS1 (inp : ReloadInput) : RState :=
  ⟨[], inp.lsFiles.chunks.foldl
      (fun c fn => dictInsert c fn ⟨"  ".toList, none, none⟩) [], [[]]⟩

/-- Reload after the status-query loop. -/
def reloadS2 (inp : ReloadInput) : RState :=
  inp.statusQ.chunks.foldl (statusStep inp.show_ignored inp.fs (reloadCands inp))
    (reloadS1 inp)

/-- GitStatus.reload before the final sort: the cleared state, the ls-files seeding,
the status loop, the two numstat loops, then the materialization of the remaining
candidates (step 7). -/
def reloadPre (inp : ReloadInput) : Except Unit RState :=
  match inp.unstagedQ.chunks.foldlM unstagedStep (reloadS2 inp).cache with
  | .error e => .error e
  | .ok c3 =>
    match inp.stagedQ.chunks.foldlM stagedStep c3 with
    | .error e => .error e
    | .ok c4 =>
      .ok ((filenamesDict inp.files).foldl (candStep inp.show_ignored)
        ⟨(reloadS2 inp).rows, c4, (reloadS2 inp).trace⟩)

/-- GitStatus.reload (the row/cache part): the pre-sort state with the rows sorted by
the last column descending (the orderBy call, line 364). -/
def reloadCore (inp : ReloadInput) : Except Unit RState :=
  match reloadPre inp with
  | .error e => .error e
  | .ok s5 =>
    .ok ⟨sortDesc
          (fun a b => cvLt (lastColGetter a s5.cache) (lastColGetter b s5.cache))
          s5.rows,
        s5.cache, s5.trace⟩

/-- Modelled from the spec: the out-of-band error reports of one reload cycle — every
failing query is reported with the invoked command text (spec §7); visidata's
status/error functions live outside src/. -/
def reloadReports (inp : ReloadInput) : List PyStr :=
  (if inp.lsFiles.ok then [] else ["git ls-files error".toList]) ++
  (if inp.statusQ.ok then [] else ["git status error".toList]) ++
  (if inp.unstagedQ.ok then [] else ["git diff-files error".toList]) ++
  (if inp.stagedQ.ok then [] else ["git diff-index error".toList])

/-- Python str.strip(): whitespace removed from both ends. -/
def pystrip (s : PyStr) : PyStr :=
  ((s.dropWhile isPySpace).reverse.dropWhile isPySpace).reverse

/-- The outcome of one whole reload cycle: the sheet state plus the branch name, the
branch delta shown in the status line, and the error reports. -/
structure ReloadResult where
  state : RState
  branch : PyStr
  remotediff : PyStr
  reports : List PyStr
deriving DecidableEq

def reload (inp : ReloadInput) : Except Unit ReloadResult :=
  match reloadCore inp with
  | .error e => .error e
  | .ok st =>
    .ok ⟨st, pystrip inp.branchOut,
      (dictGet? (getBranchStatuses inp.branchLines) (pystrip inp.branchOut)).getD
        "no branch".toList,
      reloadReports inp⟩

theorem statusStep_cache (show_ignored : Bool) (fs : PyStr → FileInfo)
    (cands : List PyStr) (s : RState) (l : PyStr) (hne : l ≠ []) :
    (statusStep show_ignored fs cands s l).cache =
      dictInsert s.cache (parseStatusChunk l).2 ⟨(parseStatusChunk l).1, none, none⟩ := by
  simp only [statusStep, if_neg hne]
  split
  · simp [mkGitFile]
  · split
    · simp [mkGitFile]
    · simp [addRow, mkGitFile]

/-- C9: a non-empty status chunk whose third character is not a space is treated as
the literal path: the parse yields the whole chunk as the path with sentinel code
"//", the cache maps that path to the sentinel record, and the step is a total
function, so the reload loop continues. -/
theorem statusStep_malformed (show_ignored : Bool) (fs : PyStr → FileInfo)
    (cands : List PyStr) (s : RState) (l : PyStr)
    (hne : l ≠ []) (hsp : (l.drop 2).take 1 ≠ [' ']) :
    parseStatusChunk l = ("//".toList, l) ∧
    dictGet? (statusStep show_ignored fs cands s l).cache l =
      some ⟨"//".toList, none, none⟩ := by
  have hp : parseStatusChunk l = ("//".toList, l) := by
    unfold parseStatusChunk
    rw [if_neg hsp]
  refine ⟨hp, ?_⟩
  rw [statusStep_cache show_ignored fs cands s l hne]
  simp [hp, dictGet?_insert_self]

/-- A stat oracle for concrete witnesses. -/
def fs0 : PyStr → FileInfo := fun _ => ⟨false, 0, 0, []⟩

/-- C9 witness: the malformed chunk "x" on an empty state. -/
theorem statusStep_malformed_witness :
    ("x".toList ≠ ([] : PyStr)) ∧ (("x".toList.drop 2).take 1 ≠ [' ']) ∧
    (parseStatusChunk "x".toList = ("//".toList, "x".toList) ∧
     dictGet? (statusStep false fs0 [] ⟨[], [], [[]]⟩ "x".toList).cache "x".toList =
       some ⟨"//".toList, none, none⟩) :=
  ⟨by decide, by decide,
   statusStep_malformed false fs0 [] ⟨[], [], [[]]⟩ "x".toList (by decide) (by decide)⟩

theorem pysplit_not_mem (sep : Char) (a : PyStr) (h : sep ∉ a) : pysplit sep a = [a] := by
  induction a with
  | nil => rfl
  | cons c rest ih =>
    have hc : ¬ c = sep := fun e => h (by rw [e]; exact List.mem_cons_self ..)
    rw [pysplit, if_neg hc, ih (fun hm => h (List.mem_cons_of_mem c hm))]

theorem pysplit_append (sep : Char) (a rest : PyStr) (h : sep ∉ a) :
    pysplit sep (a ++ sep :: rest) = a :: pysplit sep rest := by
  induction a with
  | nil => simp [pysplit]
  | cons c a' ih =>
    have hc : ¬ c = sep := fun e => h (by rw [e]; exact List.mem_cons_self ..)
    have h' : sep ∉ a' := fun hm => h (List.mem_cons_of_mem c hm)
    rw [List.cons_append, pysplit, if_neg hc, ih h']

theorem pysplit_three (sep : Char) (a d f : PyStr)
    (ha : sep ∉ a) (hd : sep ∉ d) (hf : sep ∉ f) :
    pysplit sep (a ++ sep :: (d ++ sep :: f)) = [a, d, f] := by
  rw [pysplit_append sep a _ ha, pysplit_append sep d _ hd, pysplit_not_mem sep f hf]

/-- A well-formed numstat line: adds, TAB, dels, TAB, path. -/
def mkNumstatLine (adds dels fn : PyStr) : PyStr :=
  adds ++ '\t' :: (dels ++ '\t' :: fn)

theorem mkNumstatLine_ne_nil (a d fn : PyStr) : mkNumstatLine a d fn ≠ [] := by
  cases a <;> simp [mkNumstatLine]

/-- C8: a well-formed unstaged numstat line sets the path's unstaged-delta field
(`adds`) to the formatted plus-slash-minus string, seeding the record with sentinel
code "##" when no record pre-exists; the staged numstat line does the same for the
staged-delta field (`dels`) with seed sentinel "$$"; and the claim's concrete
two-line example leaves foo.txt on sentinel "##" with unstaged delta plus 3 minus 1
and staged delta plus 0 minus 0, both in the formatted plus-slash-minus shape. -/
theorem numstat_merge (cache : Cache) (a d fn : PyStr)
    (ha : '\t' ∉ a) (hd : '\t' ∉ d) (hf : '\t' ∉ fn) :
    (∃ c1, unstagedStep cache (mkNumstatLine a d fn) = .ok c1 ∧
      dictGet? c1 fn = some
        ⟨((dictGet? cache fn).getD ⟨"##".toList, none, none⟩).status,
         some (fmtDelta a d),
         ((dictGet? cache fn).getD ⟨"##".toList, none, none⟩).dels⟩) ∧
    (∃ c2, stagedStep cache (mkNumstatLine a d fn) = .ok c2 ∧
      dictGet? c2 fn = some
        ⟨((dictGet? cache fn).getD ⟨"$$".toList, none, none⟩).status,
         ((dictGet? cache fn).getD ⟨"$$".toList, none, none⟩).adds,
         some (fmtDelta a d)⟩) ∧
    (∃ c3 c4, unstagedStep [] "3\t1\tfoo.txt".toList = .ok c3 ∧
      stagedStep c3 "0\t0\tfoo.txt".toList = .ok c4 ∧
      dictGet? c4 "foo.txt".toList =
        some ⟨"##".toList, some "+3/-1".toList, some "+0/-0".toList⟩) := by
  have hsplit : pysplit '\t' (mkNumstatLine a d fn) = [a, d, fn] :=
    pysplit_three '\t' a d fn ha hd hf
  refine ⟨?_, ?_, ⟨_, _, rfl, rfl, rfl⟩⟩
  · have hstep : unstagedStep cache (mkNumstatLine a d fn) =
        .ok (dictModify
          (if (dictGet? cache fn).isSome then cache
           else dictInsert cache fn ⟨"##".toList, none, none⟩) fn
          (fun cs => ⟨cs.status, some (fmtDelta a d), cs.dels⟩)) := by
      rw [unstagedStep, if_neg (mkNumstatLine_ne_nil a d fn), hsplit]
    refine ⟨_, hstep, ?_⟩
    cases h : dictGet? cache fn with
    | none => simp [h, dictGet?_modify_self, dictGet?_insert_self]
    | some r => simp [h, dictGet?_modify_self]
  · have hstep : stagedStep cache (mkNumstatLine a d fn) =
        .ok (dictModify
          (if (dictGet? cache fn).isSome then cache
           else dictInsert cache fn ⟨"$$".toList, none, none⟩) fn
          (fun cs => ⟨cs.status, cs.adds, some (fmtDelta a d)⟩)) := by
      rw [stagedStep, if_neg (mkNumstatLine_ne_nil a d fn), hsplit]
    refine ⟨_, hstep, ?_⟩
    cases h : dictGet? cache fn with
    | none => simp [h, dictGet?_modify_self, dictGet?_insert_self]
    | some r => simp [h, dictGet?_modify_self]

/-- C8 witness: the empty cache with the claim's fields 3, 1, foo.txt. -/
theorem numstat_merge_witness :
    ('\t' ∉ "3".toList) ∧ ('\t' ∉ "1".toList) ∧ ('\t' ∉ "foo.txt".toList) ∧
    ((∃ c1, unstagedStep [] (mkNumstatLine "3".toList "1".toList "foo.txt".toList) =
        .ok c1 ∧
      dictGet? c1 "foo.txt".toList = some
        ⟨((dictGet? ([] : Cache) "foo.txt".toList).getD ⟨"##".toList, none, none⟩).status,
         some (fmtDelta "3".toList "1".toList),
         ((dictGet? ([] : Cache) "foo.txt".toList).getD ⟨"##".toList, none, none⟩).dels⟩)) :=
  ⟨by decide, by decide, by decide,
   (numstat_merge [] "3".toList "1".toList "foo.txt".toList
     (by decide) (by decide) (by decide)).1⟩

/-- Adjacent descending order of a row list under a boolean less-than: no row is less
than its successor. -/
def chainDescB (lt : GitFile → GitFile → Bool) : List GitFile → Bool
  | [] => true
  | [_] => true
  | a :: b :: rest => !lt a b && chainDescB lt (b :: rest)

theorem chainDescB_cons_cons (lt : GitFile → GitFile → Bool) (a b : GitFile)
    (l : List GitFile) :
    chainDescB lt (a :: b :: l) = (!lt a b && chainDescB lt (b :: l)) := rfl

/-- The staged column's getter (columns[3]). -/
def stagedGetter (r : GitFile) (c : Cache) : CellValue :=
  .vopt (git_status_view c r.filename).dels

/-- The C6 claim at one reload input: a successful reload leaves the rows in
descending order of the staged-delta column. -/
def c6ClaimHolds (inp : ReloadInput) : Bool :=
  match reload inp with
  | .error _ => true
  | .ok st =>
    chainDescB
      (fun x y => cvLt (stagedGetter x st.state.cache) (stagedGetter y st.state.cache))
      st.state.rows

def c6gfa : GitFile := ⟨"a".toList, false, 0, 1, []⟩

def c6gfb : GitFile := ⟨"b".toList, false, 0, 2, []⟩

/-- A reload input with two candidate files whose mtimes order them opposite to their
staged deltas: file a has the larger staged delta, file b the larger mtime. -/
def c6input : ReloadInput :=
  ⟨[c6gfa, c6gfb], [], [], ⟨[], true⟩, ⟨[], true⟩, ⟨[], true⟩,
   ⟨["5\t0\ta".toList, "0\t0\tb".toList], true⟩, false, fs0⟩

/-- C6 counterexample: at c6input the reload succeeds but its rows are not in
descending staged-delta order — the sort uses the last column, which is mtime, so
row b (smaller staged delta, larger mtime) comes first. -/
theorem reload_not_sorted_by_staged : c6ClaimHolds c6input = false := by
  decide

theorem lastColGetter_eq (r : GitFile) (c : Cache) : lastColGetter r c = .vint r.mtime :=
  rfl

theorem insertDesc_head (lt : GitFile → GitFile → Bool) (x : GitFile)
    (l : List GitFile) :
    (insertDesc lt x l).head? = some x ∨ (insertDesc lt x l).head? = l.head? := by
  cases l with
  | nil => left; rfl
  | cons y ys =>
    rw [insertDesc]
    by_cases h : lt y x = true
    · rw [if_pos h]; left; rfl
    · rw [if_neg h]; right; rfl

theorem insertDesc_chain' (key : GitFile → Int) (x : GitFile) (l : List GitFile)
    (h : l.Chain' (fun a b => key b ≤ key a)) :
    (insertDesc (fun a b => decide (key a < key b)) x l).Chain'
      (fun a b => key b ≤ key a) := by
  induction l with
  | nil => simp [insertDesc]
  | cons y ys ih =>
    rw [insertDesc]
    by_cases hyx : key y < key x
    · rw [if_pos (by simpa using hyx)]
      rw [List.chain'_cons]
      exact ⟨by omega, h⟩
    · rw [if_neg (by simpa using hyx)]
      have hparts := List.chain'_cons'.mp h
      rw [List.chain'_cons']
      refine ⟨?_, ih hparts.2⟩
      intro b hb
      rcases insertDesc_head (fun a b => decide (key a < key b)) x ys with hh | hh
      · rw [hh] at hb
        simp at hb
        subst hb
        omega
      · rw [hh] at hb
        exact hparts.1 b hb

theorem sortDesc_chain' (key : GitFile → Int) (l : List GitFile) :
    (sortDesc (fun a b => decide (key a < key b)) l).Chain'
      (fun a b => key b ≤ key a) := by
  induction l with
  | nil => simp [sortDesc]
  | cons x xs ih => exact insertDesc_chain' key x _ ih

/-- C6 amended: step 8 of the reload sorts by the last column descending, but the
last column is the mtime column, not the staged delta (the staged column is fourth):
at the end of every successful reload the visible rows are in descending order of
mtime. -/
theorem reload_rows_sorted_by_mtime (inp : ReloadInput) (st : ReloadResult)
    (h : reload inp = .ok st) :
    st.state.rows.Chain' (fun a b => b.mtime ≤ a.mtime) := by
  unfold reload at h
  cases hcore : reloadCore inp with
  | error e =>
    rw [hcore] at h
    exact absurd h (by simp)
  | ok v =>
    rw [hcore] at h
    have hst : st.state = v := by
      cases h
      rfl
    unfold reloadCore at hcore
    cases hpre : reloadPre inp with
    | error e =>
      rw [hpre] at hcore
      exact absurd hcore (by simp)
    | ok s5 =>
      rw [hpre] at hcore
      have hv : v = ⟨sortDesc
          (fun a b => cvLt (lastColGetter a s5.cache) (lastColGetter b s5.cache))
          s5.rows, s5.cache, s5.trace⟩ := by
        cases hcore
        rfl
      rw [hst, hv]
      exact sortDesc_chain' (fun r => r.mtime) s5.rows

/-- The concrete result of reloading c6input. -/
def c6result : ReloadResult :=
  ⟨⟨[c6gfb, c6gfa],
    [("a".toList, ⟨"$$".toList, none, some "+5/-0".toList⟩),
     ("b".toList, ⟨"$$".toList, none, some "+0/-0".toList⟩)],
    [[], [c6gfa], [c6gfa, c6gfb]]⟩,
   [], "no branch".toList, []⟩

/-- C6 witness: the amended theorem applied to the concrete c6input reload. -/
theorem reload_rows_sorted_by_mtime_witness :
    reload c6input = Except.ok c6result ∧
    c6result.state.rows.Chain' (fun a b => b.mtime ≤ a.mtime) :=
  ⟨rfl, reload_rows_sorted_by_mtime c6input c6result rfl⟩

/-- The C4 claim at one reload input: from a reader's point of view the row list only
ever holds the cleared value or the final completed value (an atomic swap at cycle
end). -/
def c4ClaimHolds (inp : ReloadInput) : Bool :=
  match reload inp with
  | .error _ => true
  | .ok st =>
    st.state.trace.all (fun t => decide (t = []) || decide (t = st.state.rows))

/-- C4 counterexample: reload clears the row list up front and appends rows one by
one, so at c6input a reader can observe the intermediate one-row list, which is
neither the cleared list nor the final two-row list. -/
theorem reload_not_atomic : c4ClaimHolds c6input = false := by
  decide

/-- The row-trace invariant reload maintains while building the rows: the trace
starts at the cleared list and every recorded value is a prefix of the current rows,
the last one being the current rows themselves. -/
def TraceInv (s : RState) : Prop :=
  s.trace ≠ [] ∧ s.trace.head? = some [] ∧ (∀ t ∈ s.trace, t <+: s.rows) ∧
  s.trace.getLastD [] = s.rows

theorem getLastD_concat' {α : Type} (l : List α) (x d : α) :
    (l ++ [x]).getLastD d = x := by
  induction l with
  | nil => rfl
  | cons a as ih =>
    cases as with
    | nil => rfl
    | cons b bs => simpa using ih

theorem traceInv_addRow (s : RState) (gf : GitFile) (h : TraceInv s) :
    TraceInv (addRow s gf) := by
  obtain ⟨h1, h2, h3, h4⟩ := h
  refine ⟨by simp [addRow], ?_, ?_, ?_⟩
  · cases ht : s.trace with
    | nil => exact absurd ht h1
    | cons a as =>
      rw [ht] at h2
      simpa [addRow, ht] using h2
  · intro t htm
    have htm' : t ∈ s.trace ∨ t = s.rows ++ [gf] := by simpa [addRow] using htm
    show t <+: s.rows ++ [gf]
    rcases htm' with hold | hnew
    · exact (h3 t hold).trans (List.prefix_append s.rows [gf])
    · rw [hnew]
  · simp [addRow, getLastD_concat']

theorem traceInv_cacheOnly (s : RState) (c : Cache) (h : TraceInv s) :
    TraceInv ⟨s.rows, c, s.trace⟩ :=
  h

theorem traceInv_statusStep (show_ignored : Bool) (fs : PyStr → FileInfo)
    (cands : List PyStr) (s : RState) (l : PyStr) (h : TraceInv s) :
    TraceInv (statusStep show_ignored fs cands s l) := by
  by_cases hne : l = []
  · subst hne
    simpa [statusStep] using h
  · simp only [statusStep, if_neg hne]
    split
    · exact traceInv_cacheOnly s _ h
    · split
      · exact traceInv_cacheOnly s _ h
      · exact traceInv_addRow _ _ (traceInv_cacheOnly s _ h)

theorem traceInv_statusFold (show_ignored : Bool) (fs : PyStr → FileInfo)
    (cands : List PyStr) (chunks : List PyStr) (s : RState) (h : TraceInv s) :
    TraceInv (chunks.foldl (statusStep show_ignored fs cands) s) := by
  induction chunks generalizing s with
  | nil => exact h
  | cons l ls ih =>
    exact ih _ (traceInv_statusStep show_ignored fs cands s l h)

theorem traceInv_candStep (show_ignored : Bool) (s : RState) (p : PyStr × GitFile)
    (h : TraceInv s) : TraceInv (candStep show_ignored s p) := by
  rw [candStep]
  split
  · exact h
  · exact traceInv_addRow _ _ h

theorem traceInv_candFold (show_ignored : Bool) (items : List (PyStr × GitFile))
    (s : RState) (h : TraceInv s) :
    TraceInv (items.foldl (candStep show_ignored) s) := by
  induction items generalizing s with
  | nil => exact h
  | cons p ps ih => exact ih _ (traceInv_candStep show_ignored s p h)

theorem reloadS1_traceInv (inp : ReloadInput) : TraceInv (reloadS1 inp) :=
  ⟨by simp [reloadS1], rfl, by simp [reloadS1], rfl⟩

theorem reloadS2_traceInv (inp : ReloadInput) : TraceInv (reloadS2 inp) :=
  traceInv_statusFold _ _ _ _ _ (reloadS1_traceInv inp)

theorem reloadPre_traceInv (inp : ReloadInput) (s5 : RState)
    (h : reloadPre inp = .ok s5) : TraceInv s5 := by
  unfold reloadPre at h
  cases h3 : inp.unstagedQ.chunks.foldlM unstagedStep (reloadS2 inp).cache with
  | error e =>
    rw [h3] at h
    exact absurd h (by simp)
  | ok c3 =>
    rw [h3] at h
    dsimp only at h
    cases h4 : inp.stagedQ.chunks.foldlM stagedStep c3 with
    | error e =>
      rw [h4] at h
      exact absurd h (by simp)
    | ok c4 =>
      rw [h4] at h
      dsimp only at h
      have hs5 : s5 = (filenamesDict inp.files).foldl (candStep inp.show_ignored)
          ⟨(reloadS2 inp).rows, c4, (reloadS2 inp).trace⟩ := by
        cases h
        rfl
      rw [hs5]
      exact traceInv_candFold _ _ _ (traceInv_cacheOnly _ _ (reloadS2_traceInv inp))

theorem insertDesc_perm {α : Type} (lt : α → α → Bool) (x : α) (l : List α) :
    List.Perm (insertDesc lt x l) (x :: l) := by
  induction l with
  | nil => exact List.Perm.refl _
  | cons y ys ih =>
    rw [insertDesc]
    by_cases h : lt y x = true
    · rw [if_pos h]
    · rw [if_neg h]
      exact (List.Perm.cons y ih).trans (List.Perm.swap x y ys)

theorem sortDesc_perm {α : Type} (lt : α → α → Bool) (l : List α) :
    List.Perm (sortDesc lt l) l := by
  induction l with
  | nil => exact List.Perm.refl _
  | cons x xs ih => exact (insertDesc_perm lt x _).trans (List.Perm.cons x ih)

/-- C4 amended: the row list is not swapped in atomically — reload clears it at the
start of the cycle and appends rows as the queries are processed. What does hold:
every value a reader can observe is a prefix of the completed (pre-sort) row list of
the current cycle, the first observed value is the cleared list, and the final rows
are a permutation (the sort) of the completed list — so no observed state ever mixes
rows from two different cycles. -/
theorem reload_trace_amended (inp : ReloadInput) (st : ReloadResult)
    (h : reload inp = .ok st) :
    st.state.trace.head? = some [] ∧
    (∀ t ∈ st.state.trace, t <+: st.state.trace.getLastD []) ∧
    List.Perm st.state.rows (st.state.trace.getLastD []) := by
  unfold reload at h
  cases hcore : reloadCore inp with
  | error e =>
    rw [hcore] at h
    exact absurd h (by simp)
  | ok v =>
    rw [hcore] at h
    have hst : st.state = v := by
      cases h
      rfl
    unfold reloadCore at hcore
    cases hpre : reloadPre inp with
    | error e =>
      rw [hpre] at hcore
      exact absurd hcore (by simp)
    | ok s5 =>
      rw [hpre] at hcore
      have hv : v = ⟨sortDesc
          (fun a b => cvLt (lastColGetter a s5.cache) (lastColGetter b s5.cache))
          s5.rows, s5.cache, s5.trace⟩ := by
        cases hcore
        rfl
      obtain ⟨i1, i2, i3, i4⟩ := reloadPre_traceInv inp s5 hpre
      rw [hst, hv]
      refine ⟨i2, ?_, ?_⟩
      · intro t htm
        rw [show (⟨sortDesc
            (fun a b => cvLt (lastColGetter a s5.cache) (lastColGetter b s5.cache))
            s5.rows, s5.cache, s5.trace⟩ : RState).trace = s5.trace from rfl] at htm
        rw [i4]
        exact i3 t htm
      · rw [show (⟨sortDesc
            (fun a b => cvLt (lastColGetter a s5.cache) (lastColGetter b s5.cache))
            s5.rows, s5.cache, s5.trace⟩ : RState).trace = s5.trace from rfl, i4]
        exact sortDesc_perm _ s5.rows

/-- C4 witness: the amended theorem at the concrete c6input reload. -/
theorem reload_trace_amended_witness :
    reload c6input = Except.ok c6result ∧
    (c6result.state.trace.head? = some [] ∧
     (∀ t ∈ c6result.state.trace, t <+: c6result.state.trace.getLastD []) ∧
     List.Perm c6result.state.rows (c6result.state.trace.getLastD [])) :=
  ⟨rfl, reload_trace_amended c6input c6result rfl⟩

/-- The path one numstat line mentions, if it is non-empty and well-formed. -/
def optPath (l : PyStr) : Option PyStr :=
  if l = [] then none
  else
    match pysplit '\t' l with
    | [_, _, f] => some f
    | _ => none

/-- The paths a numstat output mentions. -/
def numstatPaths (lines : List PyStr) : List PyStr :=
  lines.filterMap optPath

/-- The same reload input with every query marked as having exited zero. -/
def allOk (inp : ReloadInput) : ReloadInput :=
  ⟨inp.files, inp.branchOut, inp.branchLines, ⟨inp.lsFiles.chunks, true⟩,
   ⟨inp.statusQ.chunks, true⟩, ⟨inp.unstagedQ.chunks, true⟩,
   ⟨inp.stagedQ.chunks, true⟩, inp.show_ignored, inp.fs⟩

theorem lsSeed_get_not_mem (chunks : List PyStr) (c0 : Cache) (fn : PyStr)
    (h : fn ∉ chunks) :
    dictGet? (chunks.foldl
      (fun c k => dictInsert c k ⟨"  ".toList, none, none⟩) c0) fn =
      dictGet? c0 fn := by
  induction chunks generalizing c0 with
  | nil => rfl
  | cons k ks ih =>
    have hk : k ≠ fn := fun e => h (e ▸ List.mem_cons_self k ks)
    rw [List.foldl_cons, ih _ (fun hm => h (List.mem_cons_of_mem k hm)),
      dictGet?_insert_ne _ _ _ _ hk]

theorem lsSeed_get (chunks : List PyStr) (c0 : Cache) (fn : PyStr) (h : fn ∈ chunks) :
    dictGet? (chunks.foldl
      (fun c k => dictInsert c k ⟨"  ".toList, none, none⟩) c0) fn =
      some ⟨"  ".toList, none, none⟩ := by
  induction chunks generalizing c0 with
  | nil => cases h
  | cons k ks ih =>
    by_cases hk : fn ∈ ks
    · exact ih _ hk
    · have hfk : k = fn := by
        rcases List.mem_cons.mp h with h1 | h2
        · exact h1.symm
        · exact absurd h2 hk
      rw [List.foldl_cons, lsSeed_get_not_mem ks _ fn hk, hfk,
        dictGet?_insert_self]

theorem statusFold_cache_not_touched (show_ignored : Bool) (fs : PyStr → FileInfo)
    (cands : List PyStr) (chunks : List PyStr) (s : RState) (fn : PyStr)
    (h : ∀ l ∈ chunks, l ≠ [] → (parseStatusChunk l).2 ≠ fn) :
    dictGet? (chunks.foldl (statusStep show_ignored fs cands) s).cache fn =
      dictGet? s.cache fn := by
  induction chunks generalizing s with
  | nil => rfl
  | cons l ls ih =>
    rw [List.foldl_cons, ih _ (fun l' hl' => h l' (List.mem_cons_of_mem l hl'))]
    by_cases hne : l = []
    · subst hne
      simp [statusStep]
    · rw [statusStep_cache show_ignored fs cands s l hne]
      exact dictGet?_insert_ne _ _ _ _ (h l (List.mem_cons_self ..) hne)

theorem unstagedStep_preserves (cache c' : Cache) (l : PyStr) (fn : PyStr)
    (hok : unstagedStep cache l = .ok c')
    (hf : ∀ f, optPath l = some f → f ≠ fn) :
    dictGet? c' fn = dictGet? cache fn := by
  by_cases hne : l = []
  · rw [hne] at hok
    have he : Except.ok (ε := Unit) cache = .ok c' := hok
    cases he
    rfl
  · rw [unstagedStep, if_neg hne] at hok
    cases hsp : pysplit '\t' l with
    | nil =>
      rw [hsp] at hok
      exact absurd hok (by simp)
    | cons a t1 =>
      cases t1 with
      | nil =>
        rw [hsp] at hok
        exact absurd hok (by simp)
      | cons d t2 =>
        cases t2 with
        | nil =>
          rw [hsp] at hok
          exact absurd hok (by simp)
        | cons f t3 =>
          cases t3 with
          | cons x t4 =>
            rw [hsp] at hok
            exact absurd hok (by simp)
          | nil =>
            rw [hsp] at hok
            have hc' : c' = dictModify
                (if (dictGet? cache f).isSome then cache
                 else dictInsert cache f ⟨"##".toList, none, none⟩) f
                (fun cs => ⟨cs.status, some (fmtDelta a d), cs.dels⟩) := by
              cases hok
              rfl
            have hffn : f ≠ fn := hf f (by simp [optPath, hne, hsp])
            rw [hc', dictGet?_modify_ne _ _ _ _ hffn]
            by_cases hsome : (dictGet? cache f).isSome
            · rw [if_pos hsome]
            · rw [if_neg hsome, dictGet?_insert_ne _ _ _ _ hffn]

theorem stagedStep_preserves (cache c' : Cache) (l : PyStr) (fn : PyStr)
    (hok : stagedStep cache l = .ok c')
    (hf : ∀ f, optPath l = some f → f ≠ fn) :
    dictGet? c' fn = dictGet? cache fn := by
  by_cases hne : l = []
  · rw [hne] at hok
    have he : Except.ok (ε := Unit) cache = .ok c' := hok
    cases he
    rfl
  · rw [stagedStep, if_neg hne] at hok
    cases hsp : pysplit '\t' l with
    | nil =>
      rw [hsp] at hok
      exact absurd hok (by simp)
    | cons a t1 =>
      cases t1 with
      | nil =>
        rw [hsp] at hok
        exact absurd hok (by simp)
      | cons d t2 =>
        cases t2 with
        | nil =>
          rw [hsp] at hok
          exact absurd hok (by simp)
        | cons f t3 =>
          cases t3 with
          | cons x t4 =>
            rw [hsp] at hok
            exact absurd hok (by simp)
          | nil =>
            rw [hsp] at hok
            have hc' : c' = dictModify
                (if (dictGet? cache f).isSome then cache
                 else dictInsert cache f ⟨"$$".toList, none, none⟩) f
                (fun cs => ⟨cs.status, cs.adds, some (fmtDelta a d)⟩) := by
              cases hok
              rfl
            have hffn : f ≠ fn := hf f (by simp [optPath, hne, hsp])
            rw [hc', dictGet?_modify_ne _ _ _ _ hffn]
            by_cases hsome : (dictGet? cache f).isSome
            · rw [if_pos hsome]
            · rw [if_neg hsome, dictGet?_insert_ne _ _ _ _ hffn]

theorem numstatPaths_not_mem_head (l : PyStr) (ls : List PyStr) (fn : PyStr)
    (h : fn ∉ numstatPaths (l :: ls)) :
    fn ∉ numstatPaths ls ∧ (∀ f, optPath l = some f → f ≠ fn) := by
  unfold numstatPaths at h ⊢
  rw [List.filterMap_cons] at h
  cases hopt : optPath l with
  | none =>
    rw [hopt] at h
    dsimp only at h
    exact ⟨h, fun f hf => Option.noConfusion hf⟩
  | some f0 =>
    rw [hopt] at h
    dsimp only at h
    refine ⟨fun hm => h (List.mem_cons_of_mem f0 hm), ?_⟩
    intro f hf heq
    apply h
    rw [show f0 = f from Option.some.inj hf, heq]
    exact List.mem_cons_self ..

theorem unstagedFold_preserves (lines : List PyStr) (cache c' : Cache) (fn : PyStr)
    (hok : lines.foldlM unstagedStep cache = .ok c')
    (hfn : fn ∉ numstatPaths lines) :
    dictGet? c' fn = dictGet? cache fn := by
  induction lines generalizing cache with
  | nil =>
    have he : Except.ok (ε := Unit) cache = .ok c' := hok
    cases he
    rfl
  | cons l ls ih =>
    obtain ⟨hfn1, hfn2⟩ := numstatPaths_not_mem_head l ls fn hfn
    rw [List.foldlM_cons] at hok
    cases hstep : unstagedStep cache l with
    | error e =>
      rw [hstep] at hok
      cases (show (Except.error e : Except Unit Cache) = .ok c' from hok)
    | ok c1 =>
      rw [hstep] at hok
      have hok2 : ls.foldlM unstagedStep c1 = .ok c' := hok
      rw [ih c1 hok2 hfn1]
      exact unstagedStep_preserves cache c1 l fn hstep hfn2

theorem stagedFold_preserves (lines : List PyStr) (cache c' : Cache) (fn : PyStr)
    (hok : lines.foldlM stagedStep cache = .ok c')
    (hfn : fn ∉ numstatPaths lines) :
    dictGet? c' fn = dictGet? cache fn := by
  induction lines generalizing cache with
  | nil =>
    have he : Except.ok (ε := Unit) cache = .ok c' := hok
    cases he
    rfl
  | cons l ls ih =>
    obtain ⟨hfn1, hfn2⟩ := numstatPaths_not_mem_head l ls fn hfn
    rw [List.foldlM_cons] at hok
    cases hstep : stagedStep cache l with
    | error e =>
      rw [hstep] at hok
      cases (show (Except.error e : Except Unit Cache) = .ok c' from hok)
    | ok c1 =>
      rw [hstep] at hok
      have hok2 : ls.foldlM stagedStep c1 = .ok c' := hok
      rw [ih c1 hok2 hfn1]
      exact stagedStep_preserves cache c1 l fn hstep hfn2

theorem candFold_cache (show_ignored : Bool) (items : List (PyStr × GitFile))
    (s : RState) :
    (items.foldl (candStep show_ignored) s).cache = s.cache := by
  induction items generalizing s with
  | nil => rfl
  | cons p ps ih =>
    rw [List.foldl_cons, ih]
    rw [candStep]
    split
    · rfl
    · rfl

theorem reloadPre_ok_elim (inp : ReloadInput) (s5 : RState)
    (h : reloadPre inp = .ok s5) :
    ∃ c3 c4,
      inp.unstagedQ.chunks.foldlM unstagedStep (reloadS2 inp).cache = .ok c3 ∧
      inp.stagedQ.chunks.foldlM stagedStep c3 = .ok c4 ∧
      s5 = (filenamesDict inp.files).foldl (candStep inp.show_ignored)
        ⟨(reloadS2 inp).rows, c4, (reloadS2 inp).trace⟩ := by
  unfold reloadPre at h
  cases h3 : inp.unstagedQ.chunks.foldlM unstagedStep (reloadS2 inp).cache with
  | error e =>
    rw [h3] at h
    exact absurd h (by simp)
  | ok c3 =>
    rw [h3] at h
    dsimp only at h
    cases h4 : inp.stagedQ.chunks.foldlM stagedStep c3 with
    | error e =>
      rw [h4] at h
      exact absurd h (by simp)
    | ok c4 =>
      rw [h4] at h
      dsimp only at h
      refine ⟨c3, c4, rfl, h4, ?_⟩
      cases h
      rfl

/-- C2: a failing query does not abort the reload. Its failure is reported out of
band; the rows, cache and trace of the cycle are exactly those computed from the
chunks every query delivered (so the remaining queries of the cycle still execute
and the failing query contributes only the data that arrived before the error); and
a record seeded by the earlier ls-files query whose path no later query touches
keeps its clean code with both deltas absent. -/
theorem reload_query_failure_tolerant (inp : ReloadInput) (st : ReloadResult)
    (h : reload inp = .ok st) :
    (inp.lsFiles.ok = false → "git ls-files error".toList ∈ st.reports) ∧
    (inp.statusQ.ok = false → "git status error".toList ∈ st.reports) ∧
    (inp.unstagedQ.ok = false → "git diff-files error".toList ∈ st.reports) ∧
    (inp.stagedQ.ok = false → "git diff-index error".toList ∈ st.reports) ∧
    (∃ st', reload (allOk inp) = .ok st' ∧ st'.state = st.state) ∧
    (∀ fn, fn ∈ inp.lsFiles.chunks →
      (∀ l ∈ inp.statusQ.chunks, l ≠ [] → (parseStatusChunk l).2 ≠ fn) →
      fn ∉ numstatPaths inp.unstagedQ.chunks →
      fn ∉ numstatPaths inp.stagedQ.chunks →
      dictGet? st.state.cache fn = some ⟨"  ".toList, none, none⟩) := by
  unfold reload at h
  cases hcore : reloadCore inp with
  | error e =>
    rw [hcore] at h
    exact absurd h (by simp)
  | ok v =>
    rw [hcore] at h
    have hrep : st.reports = reloadReports inp := by
      cases h
      rfl
    have hst : st.state = v := by
      cases h
      rfl
    have hcoreOk : reloadCore (allOk inp) = reloadCore inp := rfl
    refine ⟨?_, ?_, ?_, ?_, ?_, ?_⟩
    · intro hfail
      rw [hrep]
      simp [reloadReports, hfail]
    · intro hfail
      rw [hrep]
      simp [reloadReports, hfail]
    · intro hfail
      rw [hrep]
      simp [reloadReports, hfail]
    · intro hfail
      rw [hrep]
      simp [reloadReports, hfail]
    · refine ⟨⟨v, pystrip inp.branchOut,
        (dictGet? (getBranchStatuses inp.branchLines) (pystrip inp.branchOut)).getD
          "no branch".toList, reloadReports (allOk inp)⟩, ?_, ?_⟩
      · unfold reload
        rw [hcoreOk, hcore]
        rfl
      · rw [hst]
    · intro fn hmem hstat hun hstg
      unfold reloadCore at hcore
      cases hpre : reloadPre inp with
      | error e =>
        rw [hpre] at hcore
        exact absurd hcore (by simp)
      | ok s5 =>
        rw [hpre] at hcore
        have hv : v = ⟨sortDesc
            (fun a b => cvLt (lastColGetter a s5.cache) (lastColGetter b s5.cache))
            s5.rows, s5.cache, s5.trace⟩ := by
          cases hcore
          rfl
        obtain ⟨c3, c4, h3, h4, hs5⟩ := reloadPre_ok_elim inp s5 hpre
        rw [hst, hv]
        show dictGet? s5.cache fn = some ⟨"  ".toList, none, none⟩
        rw [hs5, candFold_cache]
        show dictGet? c4 fn = some ⟨"  ".toList, none, none⟩
        rw [stagedFold_preserves inp.stagedQ.chunks c3 c4 fn h4 hstg,
          unstagedFold_preserves inp.unstagedQ.chunks (reloadS2 inp).cache c3 fn h3 hun]
        rw [show (reloadS2 inp).cache =
            (inp.statusQ.chunks.foldl
              (statusStep inp.show_ignored inp.fs (reloadCands inp))
              (reloadS1 inp)).cache from rfl]
        rw [statusFold_cache_not_touched inp.show_ignored inp.fs (reloadCands inp)
          inp.statusQ.chunks (reloadS1 inp) fn hstat]
        exact lsSeed_get inp.lsFiles.chunks [] fn hmem

/-- A reload input whose status query failed before delivering anything, while the
ls-files query delivered one tracked path. -/
def c2input : ReloadInput :=
  ⟨[], [], [], ⟨["a.txt".toList], true⟩, ⟨[], false⟩, ⟨[], true⟩, ⟨[], true⟩,
   false, fs0⟩

/-- The concrete result of reloading c2input. -/
def c2result : ReloadResult :=
  ⟨⟨[], [("a.txt".toList, ⟨"  ".toList, none, none⟩)], [[]]⟩,
   [], "no branch".toList, ["git status error".toList]⟩

/-- C2 witness: the failed status query is reported, the state equals the all-ok
state, and the seeded tracked record survives with absent deltas. -/
theorem reload_query_failure_tolerant_witness :
    reload c2input = Except.ok c2result ∧
    c2input.statusQ.ok = false ∧
    ("git status error".toList ∈ c2result.reports) ∧
    (∃ st', reload (allOk c2input) = .ok st' ∧ st'.state = c2result.state) ∧
    dictGet? c2result.state.cache "a.txt".toList =
      some ⟨"  ".toList, none, none⟩ := by
  have hthm := reload_query_failure_tolerant c2input c2result rfl
  refine ⟨rfl, rfl, hthm.2.1 rfl, hthm.2.2.2.2.1, ?_⟩
  refine hthm.2.2.2.2.2 "a.txt".toList (by decide) ?_ (by decide) (by decide)
  intro l hl
  cases hl

/-- The number of occurrences of a path in a list of paths. -/
def countPath (p : PyStr) (l : List PyStr) : Nat :=
  l.countP (fun x => decide (x = p))

/-- The paths reported by the status query: one per non-empty chunk. -/
def statusReportedPaths (chunks : List PyStr) : List PyStr :=
  chunks.filterMap (fun l => if l = [] then none else some (parseStatusChunk l).2)

/-- Whether one status chunk materializes a visible row: non-empty, path outside the
candidate set, and not classified as ignored at the moment of the check (the chunk's
own code, just written into the cache). -/
def matRow (show_ignored : Bool) (cands : List PyStr) (l : PyStr) : Bool :=
  !(decide (l = [])) && !(decide ((parseStatusChunk l).2 ∈ cands)) &&
    (show_ignored || !(decide ((parseStatusChunk l).1 = "!!".toList)))

theorem ignored_insert (show_ignored : Bool) (c : Cache) (fn st : PyStr) :
    ignored show_ignored (dictInsert c fn ⟨st, none, none⟩) fn =
      (!show_ignored && decide (st = "!!".toList)) := by
  by_cases h : show_ignored <;> simp [ignored, h, dictGet?_insert_self]

theorem statusStep_rows (show_ignored : Bool) (fs : PyStr → FileInfo)
    (cands : List PyStr) (s : RState) (l : PyStr) :
    (statusStep show_ignored fs cands s l).rows =
      s.rows ++ (if matRow show_ignored cands l
        then [mkGitFile fs (parseStatusChunk l).2] else []) := by
  by_cases hne : l = []
  · subst hne
    simp [statusStep, matRow]
  · simp only [statusStep, if_neg hne]
    rw [show (mkGitFile fs (parseStatusChunk l).2).filename = (parseStatusChunk l).2
      from rfl]
    by_cases hc : (parseStatusChunk l).2 ∈ cands
    · rw [if_pos hc]
      simp [matRow, hne, hc]
    · rw [if_neg hc]
      have hig := ignored_insert show_ignored s.cache (parseStatusChunk l).2
        (parseStatusChunk l).1
      by_cases hi : ignored show_ignored
          (dictInsert s.cache (parseStatusChunk l).2
            ⟨(parseStatusChunk l).1, none, none⟩) (parseStatusChunk l).2 = true
      · rw [if_pos hi]
        rw [hi] at hig
        have hmf : matRow show_ignored cands l = false := by
          rcases Bool.and_eq_true .. |>.mp hig.symm with ⟨hs, hb⟩
          simp [matRow, hne, hc, Bool.not_eq_true' .. |>.mp hs, of_decide_eq_true hb]
        simp [hmf]
      · rw [if_neg hi]
        have hmt : matRow show_ignored cands l = true := by
          rw [hig] at hi
          simp [matRow, hne, hc]
          rcases Bool.and_eq_false_iff.mp (Bool.not_eq_true .. |>.mp hi) with hs | hb
          · left
            cases show_ignored
            · simp at hs
            · rfl
          · exact Or.inr (of_decide_eq_false hb)
        simp [hmt, addRow]

theorem countPath_map_append_single (rows : List GitFile) (gf : GitFile) (p : PyStr) :
    countPath p ((rows ++ [gf]).map (fun g => g.filename)) =
      countPath p (rows.map (fun g => g.filename)) +
        (if gf.filename = p then 1 else 0) := by
  unfold countPath
  rw [List.map_append, List.countP_append]
  congr 1
  by_cases h : gf.filename = p
  · simp [h]
  · simp [h]

theorem statusFold_count (show_ignored : Bool) (fs : PyStr → FileInfo)
    (cands : List PyStr) (chunks : List PyStr) (s : RState) (p : PyStr) :
    countPath p ((chunks.foldl (statusStep show_ignored fs cands) s).rows.map
        (fun gf => gf.filename)) =
      countPath p (s.rows.map (fun gf => gf.filename)) +
        chunks.countP (fun l => matRow show_ignored cands l &&
          decide ((parseStatusChunk l).2 = p)) := by
  induction chunks generalizing s with
  | nil => simp
  | cons l ls ih =>
    rw [List.foldl_cons, ih, List.countP_cons]
    have hstep : countPath p ((statusStep show_ignored fs cands s l).rows.map
        (fun gf => gf.filename)) =
        countPath p (s.rows.map (fun gf => gf.filename)) +
          (if matRow show_ignored cands l && decide ((parseStatusChunk l).2 = p)
           then 1 else 0) := by
      rw [statusStep_rows]
      by_cases hm : matRow show_ignored cands l = true
      · rw [hm, if_pos rfl, countPath_map_append_single,
          show (mkGitFile fs (parseStatusChunk l).2).filename = (parseStatusChunk l).2
            from rfl]
        by_cases hp : (parseStatusChunk l).2 = p
        · simp [hp]
        · simp [hp]
      · have hm' : matRow show_ignored cands l = false :=
          Bool.not_eq_true .. |>.mp hm
        rw [hm']
        simp
    rw [hstep]
    omega

theorem countP_mat_eq (show_ignored : Bool) (cands : List PyStr)
    (chunks : List PyStr) (p : PyStr) (hcand : p ∉ cands)
    (hig : show_ignored = true ∨ (∀ l ∈ chunks, l ≠ [] →
      (parseStatusChunk l).2 = p → (parseStatusChunk l).1 ≠ "!!".toList)) :
    chunks.countP (fun l => matRow show_ignored cands l &&
      decide ((parseStatusChunk l).2 = p)) =
      countPath p (statusReportedPaths chunks) := by
  induction chunks with
  | nil => rfl
  | cons l ls ih =>
    have hig' : show_ignored = true ∨ (∀ l' ∈ ls, l' ≠ [] →
        (parseStatusChunk l').2 = p → (parseStatusChunk l').1 ≠ "!!".toList) := by
      rcases hig with h1 | h2
      · exact Or.inl h1
      · exact Or.inr (fun l' hl' => h2 l' (List.mem_cons_of_mem l hl'))
    rw [List.countP_cons, ih hig']
    unfold statusReportedPaths countPath
    rw [List.filterMap_cons]
    by_cases hne : l = []
    · subst hne
      simp [matRow]
    · rw [if_neg hne]
      dsimp only
      rw [List.countP_cons]
      by_cases hp : (parseStatusChunk l).2 = p
      · have hmat : matRow show_ignored cands l = true := by
          have hc' : ¬ ((parseStatusChunk l).2 ∈ cands) := hp ▸ hcand
          have hnig : show_ignored = true ∨ (parseStatusChunk l).1 ≠ "!!".toList := by
            rcases hig with h1 | h2
            · exact Or.inl h1
            · exact Or.inr (h2 l (List.mem_cons_self ..) hne hp)
          rcases hnig with h1 | h2
          · simp [matRow, hne, hc', h1]
          · simp [matRow, hne, hc']
            exact Or.inr h2
        simp [hmat, hp]
      · have hz : (matRow show_ignored cands l &&
            decide ((parseStatusChunk l).2 = p)) = false := by
          simp [hp]
        rw [hz]
        simp [hp]

theorem dictInsert_mem {κ ν : Type} [DecidableEq κ] (d : List (κ × ν)) (k : κ) (v : ν)
    (q : κ × ν) (h : q ∈ dictInsert d k v) : q = (k, v) ∨ q ∈ d := by
  induction d with
  | nil => simpa [dictInsert] using h
  | cons e rest ih =>
    obtain ⟨k0, w⟩ := e
    by_cases h0 : k0 = k
    · simp only [dictInsert, if_pos h0] at h
      rcases List.mem_cons.mp h with h1 | h2
      · exact Or.inl h1
      · exact Or.inr (List.mem_cons_of_mem _ h2)
    · simp only [dictInsert, if_neg h0] at h
      rcases List.mem_cons.mp h with h1 | h2
      · right
        rw [h1]
        exact List.mem_cons_self ..
      · rcases ih h2 with h3 | h4
        · exact Or.inl h3
        · exact Or.inr (List.mem_cons_of_mem _ h4)

theorem filenamesDict_val_mem (files : List GitFile) (d0 : List (PyStr × GitFile))
    (q : PyStr × GitFile)
    (h : q ∈ files.foldl (fun d gf => dictInsert d gf.filename gf) d0) :
    q.2 ∈ files ∨ q ∈ d0 := by
  induction files generalizing d0 with
  | nil => exact Or.inr h
  | cons gf gfs ih =>
    rcases ih _ h with h1 | h2
    · exact Or.inl (List.mem_cons_of_mem _ h1)
    · rcases dictInsert_mem d0 gf.filename gf q h2 with h3 | h4
      · left
        rw [h3]
        exact List.mem_cons_self ..
      · exact Or.inr h4

theorem candFold_rows_count (show_ignored : Bool) (items : List (PyStr × GitFile))
    (s : RState) (p : PyStr) (hp : ∀ q ∈ items, q.2.filename ≠ p) :
    countPath p ((items.foldl (candStep show_ignored) s).rows.map
        (fun gf => gf.filename)) =
      countPath p (s.rows.map (fun gf => gf.filename)) := by
  induction items generalizing s with
  | nil => rfl
  | cons q qs ih =>
    rw [List.foldl_cons, ih _ (fun q' h' => hp q' (List.mem_cons_of_mem q h'))]
    rw [candStep]
    split
    · rfl
    · have hq := hp q (List.mem_cons_self ..)
      rw [show (addRow s q.2).rows = s.rows ++ [q.2] from rfl]
      rw [countPath_map_append_single, if_neg hq]
      omega

/-- C7: a path reported exactly once by the status query, absent from the directory
listing's candidate set and not classified as ignored, is materialized as exactly one
visible row during the reload: the candidate pass of step 7 only adds rows for
candidates and the final sort only permutes, so no second row for such a path ever
appears. -/
theorem status_only_path_materialized_once (inp : ReloadInput) (st : ReloadResult)
    (p : PyStr) (h : reload inp = .ok st)
    (hrep : countPath p (statusReportedPaths inp.statusQ.chunks) = 1)
    (hcand : p ∉ reloadCands inp)
    (hig : inp.show_ignored = true ∨ (∀ l ∈ inp.statusQ.chunks, l ≠ [] →
      (parseStatusChunk l).2 = p → (parseStatusChunk l).1 ≠ "!!".toList)) :
    countPath p (st.state.rows.map (fun gf => gf.filename)) = 1 := by
  unfold reload at h
  cases hcore : reloadCore inp with
  | error e =>
    rw [hcore] at h
    exact absurd h (by simp)
  | ok v =>
    rw [hcore] at h
    have hst : st.state = v := by
      cases h
      rfl
    unfold reloadCore at hcore
    cases hpre : reloadPre inp with
    | error e =>
      rw [hpre] at hcore
      exact absurd hcore (by simp)
    | ok s5 =>
      rw [hpre] at hcore
      have hv : v = ⟨sortDesc
          (fun a b => cvLt (lastColGetter a s5.cache) (lastColGetter b s5.cache))
          s5.rows, s5.cache, s5.trace⟩ := by
        cases hcore
        rfl
      obtain ⟨c3, c4, h3, h4, hs5⟩ := reloadPre_ok_elim inp s5 hpre
      rw [hst, hv]
      rw [show ((⟨sortDesc
          (fun a b => cvLt (lastColGetter a s5.cache) (lastColGetter b s5.cache))
          s5.rows, s5.cache, s5.trace⟩ : RState)).rows = sortDesc
          (fun a b => cvLt (lastColGetter a s5.cache) (lastColGetter b s5.cache))
          s5.rows from rfl]
      unfold countPath
      rw [List.Perm.countP_eq _ ((sortDesc_perm _ s5.rows).map (fun gf => gf.filename))]
      rw [show List.countP (fun x => decide (x = p))
            (s5.rows.map (fun gf => gf.filename)) =
          countPath p (s5.rows.map (fun gf => gf.filename)) from rfl]
      rw [hs5]
      have hitems : ∀ q ∈ filenamesDict inp.files, q.2.filename ≠ p := by
        intro q hq heq
        rcases filenamesDict_val_mem inp.files [] q hq with h1 | h2
        · exact hcand (heq ▸ List.mem_map_of_mem (fun gf => gf.filename) h1)
        · cases h2
      rw [candFold_rows_count inp.show_ignored (filenamesDict inp.files) _ p hitems]
      rw [show ((⟨(reloadS2 inp).rows, c4, (reloadS2 inp).trace⟩ : RState)).rows =
        (reloadS2 inp).rows from rfl]
      rw [show reloadS2 inp = inp.statusQ.chunks.foldl
        (statusStep inp.show_ignored inp.fs (reloadCands inp)) (reloadS1 inp) from rfl]
      rw [statusFold_count]
      rw [countP_mat_eq inp.show_ignored (reloadCands inp) inp.statusQ.chunks p
        hcand hig, hrep]
      rfl

/-- A reload input whose status query reports one path outside the (empty) directory
listing. -/
def c7input : ReloadInput :=
  ⟨[], [], [], ⟨[], true⟩, ⟨["?? foo.txt".toList], true⟩, ⟨[], true⟩, ⟨[], true⟩,
   false, fs0⟩

/-- The concrete result of reloading c7input. -/
def c7result : ReloadResult :=
  ⟨⟨[⟨"foo.txt".toList, false, 0, 0, []⟩],
    [("foo.txt".toList, ⟨"??".toList, none, none⟩)],
    [[], [⟨"foo.txt".toList, false, 0, 0, []⟩]]⟩,
   [], "no branch".toList, []⟩

/-- C7 witness: the untracked path foo.txt, reported once by the status query and
absent from the directory listing, is materialized exactly once. -/
theorem status_only_path_materialized_once_witness :
    reload c7input = Except.ok c7result ∧
    countPath "foo.txt".toList (statusReportedPaths c7input.statusQ.chunks) = 1 ∧
    ("foo.txt".toList ∉ reloadCands c7input) ∧
    countPath "foo.txt".toList (c7result.state.rows.map (fun gf => gf.filename)) = 1 := by
  refine ⟨rfl, by decide, by decide, ?_⟩
  refine status_only_path_materialized_once c7input c7result "foo.txt".toList rfl
    (by decide) (by decide) (Or.inr ?_)
  intro l hl hne hp
  have hl' : l = "?? foo.txt".toList := by
    rcases List.mem_cons.mp hl with h1 | h2
    · exact h1
    · cases h2
  rw [hl']
  decide

end VGit
